import Mathlib

/-!
Verification of the Registry Consistency & Compliance Engine of the
skill-factory CLI (scripts/skill-factory.ts and its v2.1 revision).

The engine is shallowly embedded: parsed JSON documents become an
inductive `JsonValue`, the manifest validator, the security auditor and
the register synchronizer become pure Lean functions translated from the
TypeScript source, and the command-level effects on the persisted
registry document are modelled by explicit state passing over a `World`
record.  All definitions are executable.
-/

set_option linter.unusedVariables false

/-- A parsed JSON document, the shape produced by JSON.parse.  Numbers are
modelled as integers (no claim in scope involves fractional numbers). -/
inductive JsonValue where
  | null
  | bool (b : Bool)
  | num (n : Int)
  | str (s : String)
  | arr (elems : List JsonValue)
  | obj (fields : List (String × JsonValue))

/-- JavaScript truthiness of a JSON value: null, false, 0 and the empty
string are falsy; every array and object is truthy. -/
def jsTruthy : JsonValue → Bool
  | .null => false
  | .bool b => b
  | .num n => n != 0
  | .str s => s != ""
  | .arr _ => true
  | .obj _ => true

/-- Truthiness of a possibly-absent value (JS undefined is falsy). -/
def jsTruthyOpt : Option JsonValue → Bool
  | some v => jsTruthy v
  | none => false

/-- Whether typeof the value is "string". -/
def jsTypeofString : JsonValue → Bool
  | .str _ => true
  | _ => false

/-- Whether the value is JSON null.  A plain (non-optional) property
access on null throws a TypeError in JavaScript; property access on any
other primitive merely evaluates to undefined. -/
def jsIsNull : JsonValue → Bool
  | .null => true
  | _ => false

mutual

/-- JavaScript string coercion String(v) of a parsed JSON value. -/
def jsToString : JsonValue → String
  | .null => "null"
  | .bool b => if b then "true" else "false"
  | .num n => toString n
  | .str s => s
  | .arr elems => jsArrToString elems
  | .obj _ => "[object Object]"

/-- Array.prototype.toString: elements coerced and joined with commas,
null elements rendered as the empty string. -/
def jsArrToString : List JsonValue → String
  | [] => ""
  | [x] => (match x with | .null => "" | v => jsToString v)
  | x :: rest =>
      (match x with | .null => "" | v => jsToString v) ++ "," ++ jsArrToString rest

end

/-- Field lookup on a parsed JSON object: models both access config.key
and the membership test key in config (absent keys read as undefined,
that is none). -/
def jsGet (config : List (String × JsonValue)) (key : String) : Option JsonValue :=
  (config.find? (fun kv => kv.1 == key)).map (fun kv => kv.2)

/-- Optional-chaining property access base?.key: undefined on a missing
base and on any non-object base. -/
def jsGetProp : Option JsonValue → String → Option JsonValue
  | some (.obj fields), key => (fields.find? (fun kv => kv.1 == key)).map (fun kv => kv.2)
  | _, _ => none

/-- Optional-chaining index access base?.[i]. -/
def jsIndex : Option JsonValue → Nat → Option JsonValue
  | some (.arr elems), i => elems.get? i
  | _, _ => none

/-- Strict equality v === lit against a string literal. -/
def jsIsStr : Option JsonValue → String → Bool
  | some (.str s), lit => s == lit
  | _, _ => false

/-! ## A small regular-expression engine

The validator and the auditor test source lines against JavaScript
regular expressions.  They are embedded as a derivative-based matcher
over an explicit regex syntax; every pattern used by the engine is
spelled out below from the literal in the source. -/

/-- Regular expressions: empty language, empty string, a character class
given by a decidable predicate, sequencing, alternation and Kleene star. -/
inductive Rx where
  | fail
  | eps
  | cls (p : Char → Bool)
  | seq (a b : Rx)
  | alt (a b : Rx)
  | star (r : Rx)

/-- Whether the regex accepts the empty string. -/
def Rx.nullable : Rx → Bool
  | .fail => false
  | .eps => true
  | .cls _ => false
  | .seq a b => a.nullable && b.nullable
  | .alt a b => a.nullable || b.nullable
  | .star _ => true

/-- Brzozowski derivative of the regex by one character. -/
def Rx.deriv : Rx → Char → Rx
  | .fail, _ => .fail
  | .eps, _ => .fail
  | .cls p, c => if p c then .eps else .fail
  | .seq a b, c =>
      if a.nullable then .alt (.seq (a.deriv c) b) (b.deriv c) else .seq (a.deriv c) b
  | .alt a b, c => .alt (a.deriv c) (b.deriv c)
  | .star r, c => .seq (r.deriv c) (.star r)

/-- Whether some prefix of the character list is accepted by the regex. -/
def rxMatchesFrom (r : Rx) : List Char → Bool
  | [] => r.nullable
  | c :: rest => r.nullable || rxMatchesFrom (r.deriv c) rest

/-- RegExp.prototype.test for an unanchored pattern: some substring
starting at some position matches. -/
def rxTest (r : Rx) (s : String) : Bool :=
  s.data.tails.any (fun t => rxMatchesFrom r t)

/-- Whether the whole string matches the regex (an anchored pattern). -/
def rxWhole (r : Rx) (s : String) : Bool :=
  (s.data.foldl Rx.deriv r).nullable

/-- Regex matching one given character. -/
def chRx (c : Char) : Rx := .cls (fun x => x == c)

/-- Regex matching a literal string. -/
def strRx (s : String) : Rx := s.data.foldr (fun c r => .seq (chRx c) r) .eps

/-- One or more repetitions. -/
def plusRx (r : Rx) : Rx := .seq r (.star r)

/-- Zero or one repetition. -/
def optRx (r : Rx) : Rx := .alt r .eps

/-- The character class backslash-s of JavaScript regexes (whitespace). -/
def wsRx : Rx := .cls (fun c =>
  c == ' ' || c == '\t' || c == '\n' || c == '\x0d' || c == '\x0b' || c == '\x0c')

/-- The character class backslash-d (an ASCII digit). -/
def digitRx : Rx := .cls (fun c => '0' ≤ c && c ≤ '9')

/-! ## Manifest validator (validateAgainstSchema) -/

/-- The required list of MCP_2026_SCHEMA. -/
def MCP_2026_required : List String := ["name", "version", "protocol", "tools"]

/-- The anchored semver pattern of the validator. -/
def semverRx : Rx :=
  .seq (plusRx digitRx) (.seq (chRx '.')
    (.seq (plusRx digitRx) (.seq (chRx '.') (plusRx digitRx))))

/-- Result of validateAgainstSchema. -/
structure ValidationResult where
  valid : Bool
  errors : List String
  deriving DecidableEq, Repr

/-- The per-element tool checks of validateAgainstSchema.  A JSON-null
element makes the plain access tool.name throw a TypeError (none); on
every other element the three plain accesses evaluate (to undefined when
the element is not an object) and each falsy piece produces an indexed
error. -/
def toolErrors (i : Nat) (tool : JsonValue) : Option (List String) :=
  if jsIsNull tool then none
  else some (
    (if jsTruthyOpt (jsGetProp (some tool) "name") then []
     else ["Tool " ++ toString i ++ ": missing \"name\""]) ++
    (if jsTruthyOpt (jsGetProp (some tool) "description") then []
     else ["Tool " ++ toString i ++ ": missing \"description\""]) ++
    (if jsTruthyOpt (jsGetProp (some tool) "inputSchema") then []
     else ["Tool " ++ toString i ++ ": missing \"inputSchema\""]))

/-- The indexed for-loop over the tools array: elements are checked in
order, and a thrown TypeError aborts the whole validation, discarding
every error accumulated so far. -/
def toolsLoop : Nat → List JsonValue → Option (List String)
  | _, [] => some []
  | i, t :: rest =>
      match toolErrors i t with
      | none => none
      | some e => (toolsLoop (i + 1) rest).map (fun r => e ++ r)

/-- The protocol-mismatch error message, naming the offending value. -/
def protocolErrMsg (v : String) : String :=
  "Field \"protocol\" should be \"mcp-2026\", got: \"" ++ v ++ "\""

/-- The semver-mismatch error message, naming the offending value. -/
def versionErrMsg (v : String) : String :=
  "Field \"version\" must match semver format (e.g., \"1.0.0\"), got: \"" ++ v ++ "\""

/-- The missing-required-field error message. -/
def missingFieldMsg (f : String) : String :=
  "Missing required field: \"" ++ f ++ "\""

/-- validateAgainstSchema applied to a parsed manifest object with the
fixed MCP_2026_SCHEMA: accumulates every applicable error in order
(required fields, name type, version format, protocol constant, tools
shape, per-tool fields) and is valid iff no error accumulated.  none
models a TypeError thrown out of the function by a JSON-null tools
element: the function then returns no verdict at all, and the caller's
surrounding catch reports a parse failure instead. -/
def validateAgainstSchema (config : List (String × JsonValue)) :
    Option ValidationResult :=
  let errors :=
    (MCP_2026_required.filterMap (fun f =>
      if (jsGet config f).isSome then none else some (missingFieldMsg f))) ++
    (match jsGet config "name" with
     | some v => if jsTruthy v && !(jsTypeofString v)
                 then ["Field \"name\" must be a string"] else []
     | none => []) ++
    (match jsGet config "version" with
     | some v => if jsTruthy v && !(rxWhole semverRx (jsToString v))
                 then [versionErrMsg (jsToString v)] else []
     | none => []) ++
    (match jsGet config "protocol" with
     | some v => if jsTruthy v && !(jsIsStr (some v) "mcp-2026")
                 then [protocolErrMsg (jsToString v)] else []
     | none => []) ++
    (match jsGet config "tools" with
     | some v => (match v with
                  | .arr _ => []
                  | _ => if jsTruthy v then ["Field \"tools\" must be an array"] else [])
     | none => [])
  match jsGet config "tools" with
  | some (.arr tools) =>
      match toolsLoop 0 tools with
      | none => none
      | some errs2 =>
          some { valid := (errors ++ errs2).isEmpty, errors := errors ++ errs2 }
  | _ => some { valid := errors.isEmpty, errors := errors }

/-! ## Security auditor: data model -/

/-- Severity of an audit finding. -/
inductive Severity where
  | critical
  | high
  | medium
  | low
  deriving DecidableEq, Repr

/-- Whether the severity flips the audit gate (critical or high). -/
def Severity.isElevated : Severity → Bool
  | .critical => true
  | .high => true
  | _ => false

/-- One security finding: severity, category tag, message and an optional
file and 1-based line locator. -/
structure AuditFinding where
  severity : Severity
  category : String
  message : String
  file : Option String
  line : Option Nat
  deriving DecidableEq, Repr

/-- Per-severity tallies of an audit result. -/
structure AuditSummary where
  critical : Nat
  high : Nat
  medium : Nat
  low : Nat
  deriving DecidableEq, Repr

/-- Result of auditSkill: ordered findings, tallies and pass/fail flag. -/
structure AuditResult where
  passed : Bool
  issues : List AuditFinding
  summary : AuditSummary
  deriving DecidableEq, Repr

/-- Increment the tally of one severity. -/
def AuditSummary.bump (s : AuditSummary) : Severity → AuditSummary
  | .critical => { s with critical := s.critical + 1 }
  | .high => { s with high := s.high + 1 }
  | .medium => { s with medium := s.medium + 1 }
  | .low => { s with low := s.low + 1 }

/-- Record one finding: push it, bump its severity tally and clear the
pass flag when the severity is critical or high.  This is the exact
push-then-count-then-flag step auditSkill performs at every site where a
finding is produced (at sites with a fixed severity the conditional is
pre-resolved in the source). -/
def addIssue (r : AuditResult) (i : AuditFinding) : AuditResult :=
  { passed := if i.severity.isElevated then false else r.passed,
    issues := r.issues ++ [i],
    summary := r.summary.bump i.severity }

/-- One row of the dangerousPatterns table. -/
structure SecurityRule where
  pattern : Rx
  severity : Severity
  category : String
  message : String

/-- The quote class of the hardcoded-secret patterns. -/
def quoteRx : Rx := .cls (fun c => c == '"' || c == '\'')

/-- One or more characters that are not quotes. -/
def notQuoteRx : Rx := plusRx (.cls (fun c => !(c == '"' || c == '\'')))

/-- A literal string matched case-insensitively (the i flag). -/
def strRxCI (s : String) : Rx :=
  s.data.foldr (fun c r => .seq (.cls (fun x => x.toLower == c.toLower)) r) .eps

/-- The pattern suffix backslash-s star equals backslash-s star quote
nonquote-run quote shared by the hardcoded-secret rules. -/
def secretTailRx : Rx :=
  .seq (.star wsRx) (.seq (chRx '=') (.seq (.star wsRx)
    (.seq quoteRx (.seq notQuoteRx quoteRx))))

/-- The ordered dangerousPatterns table of auditSkill, one entry per
regex literal in the source. -/
def dangerousPatterns : List SecurityRule :=
  [ { pattern := .seq (strRx "eval") (.seq (.star wsRx) (chRx '(')),
      severity := .critical, category := "code-injection",
      message := "Use of eval() - potential code injection" },
    { pattern := .seq (strRx "Function") (.seq (.star wsRx) (chRx '(')),
      severity := .critical, category := "code-injection",
      message := "Dynamic Function creation - potential code injection" },
    { pattern := .seq (strRx "exec") (.seq (.star wsRx) (chRx '(')),
      severity := .high, category := "command-injection",
      message := "exec() call - potential command injection" },
    { pattern := .seq (strRx "spawn") (.seq (.star wsRx) (chRx '(')),
      severity := .high, category := "command-injection",
      message := "spawn() call - potential command injection" },
    { pattern := strRx "child_process",
      severity := .high, category := "command-injection",
      message := "child_process import - review for command injection" },
    { pattern := .seq (strRx "process.env.")
        (.seq (plusRx (.cls (fun c => ('A' ≤ c && c ≤ 'Z') || c == '_')))
          (.seq (.star wsRx) (.cls (fun c => c == '+' || c.toNat == 96)))),
      severity := .medium, category := "secret-leak",
      message := "Potential environment variable leak in string" },
    { pattern := .seq (strRx "password") secretTailRx,
      severity := .high, category := "hardcoded-secret",
      message := "Hardcoded password detected" },
    { pattern := .seq (strRxCI "api")
        (.seq (optRx (.cls (fun c => c == '_' || c == '-')))
          (.seq (strRxCI "key") secretTailRx)),
      severity := .high, category := "hardcoded-secret",
      message := "Hardcoded API key detected" },
    { pattern := .seq (strRxCI "secret") secretTailRx,
      severity := .high, category := "hardcoded-secret",
      message := "Hardcoded secret detected" },
    { pattern := strRx "file:///",
      severity := .medium, category := "ssrf",
      message := "file:// protocol usage - potential SSRF" },
    { pattern := strRx "../",
      severity := .medium, category := "path-traversal",
      message := "Path traversal pattern detected" } ]

/-- The findings produced by scanning the lines of one source file: every
line is tested against every rule in table order, one finding per match,
recorded with the file name and the 1-based line number. -/
def lineFindings (file : String) (lines : List String) : List AuditFinding :=
  lines.enum.flatMap (fun il =>
    dangerousPatterns.filterMap (fun rule =>
      if rxTest rule.pattern il.2 then
        some { severity := rule.severity, category := rule.category,
               message := rule.message, file := some file, line := some (il.1 + 1) }
      else none))

/-- Fold the findings of one scanned file into the audit result. -/
def scanFileLines (file : String) (lines : List String) (r : AuditResult) : AuditResult :=
  (lineFindings file lines).foldl addIssue r

/-- String.prototype.includes as a substring test. -/
def jsIncludes (s sub : String) : Bool :=
  s.data.tails.any (fun t => sub.data.isPrefixOf t)

/-- The manifest permission checks of auditSkill, applied to a manifest
value that is not JSON null: a sandbox mode of "none" or "disabled" is a
high permissions finding; a wildcard network permission is a medium
permissions finding.  The pair's second component records a TypeError
escaping partway: a network value that is neither an array, a string,
nor null/undefined has no includes method, so the call throws after any
sandbox finding was already recorded; the caller's surrounding catch
then adds a low config finding on top of the findings recorded so far. -/
def checkPermissions (cfg : JsonValue) (r : AuditResult) : AuditResult × Bool :=
  let permissions := jsGetProp (some cfg) "permissions"
  let mode := jsGetProp (jsGetProp permissions "sandbox") "mode"
  let r1 :=
    if jsIsStr mode "none" || jsIsStr mode "disabled" then
      addIssue r { severity := .high, category := "permissions",
                   message := "Sandbox mode is disabled - skill runs without restrictions",
                   file := some "mcp-config.json", line := none }
    else r
  match jsGetProp permissions "network" with
  | some (.arr elems) =>
      (if elems.any (fun v => jsIsStr (some v) "*") then
        addIssue r1 { severity := .medium, category := "permissions",
                      message := "Wildcard network permission - consider restricting domains",
                      file := some "mcp-config.json", line := none }
      else r1, false)
  | some (.str s) =>
      (if jsIncludes s "*" then
        addIssue r1 { severity := .medium, category := "permissions",
                      message := "Wildcard network permission - consider restricting domains",
                      file := some "mcp-config.json", line := none }
      else r1, false)
  | some .null => (r1, false)
  | none => (r1, false)
  | some _ => (r1, true)

/-- The low config finding recorded by the catch around the manifest
checks of auditSkill: both when the manifest fails to read or parse and
when a TypeError is thrown partway through the checks. -/
def configLowFinding : AuditFinding :=
  ⟨.low, "config", "Could not parse mcp-config.json for security review",
    none, none⟩

/-! ## Registry data model -/

/-- Lifecycle status of a registered skill. -/
inductive SkillStatus where
  | production
  | beta
  | alpha
  | deprecated
  deriving DecidableEq, Repr

/-- The skillLink chaining descriptor of a SkillRecord. -/
structure SkillLinkInfo where
  input : List String
  output : List String
  chainable : Bool
  suggestedNextSkills : Option (List String)
  deriving DecidableEq, Repr

/-- The optional runtime descriptor of a SkillRecord. -/
structure RuntimeInfo where
  type : String
  version : String
  packageManager : String
  deriving DecidableEq, Repr

/-- The optional permission descriptor of a SkillRecord. -/
structure PermissionsInfo where
  network : List String
  filesystem : List String
  env : List String
  deriving DecidableEq, Repr

/-- The optional resource-profile descriptor of a SkillRecord.  The
source narrows intensity and memoryRequirement to string-literal unions;
they are kept as strings here. -/
structure ResourceProfile where
  intensity : String
  estimatedTokenUsage : String
  estimatedDuration : String
  memoryRequirement : String
  deriving DecidableEq, Repr

/-- One SkillRecord of the registry (interface SkillConfig). -/
structure SkillConfig where
  name : String
  category : String
  version : String
  capability : String
  mcpCommand : String
  status : SkillStatus
  skillLink : SkillLinkInfo
  entrypoint : String
  dependencies : List String
  runtime : Option RuntimeInfo
  permissions : Option PermissionsInfo
  resourceProfile : Option ResourceProfile
  created : String
  updated : String
  deriving DecidableEq, Repr

/-- One entry of the registry template index. -/
structure TemplateEntry where
  path : String
  description : String
  deriving DecidableEq, Repr

/-- The persisted registry catalog (interface DiscoveryRegistry); schema
holds the dollar-schema tag. -/
structure DiscoveryRegistry where
  schema : String
  version : String
  lastUpdated : String
  maintainer : String
  skills : List SkillConfig
  categories : List String
  templates : List (String × TemplateEntry)
  deriving DecidableEq, Repr

/-- The fresh registry loadRegistry returns when the backing document is
absent or fails to parse. -/
def defaultRegistry (now : String) : DiscoveryRegistry :=
  { schema := "https://aiwork4me.github.io/schemas/discovery-2026.json",
    version := "1.0.0",
    lastUpdated := now,
    maintainer := "AIwork4me",
    skills := [],
    categories := ["web", "code", "data", "automation"],
    templates := [] }

/-- Path join with a forward slash. -/
def pjoin (a b : String) : String := a ++ "/" ++ b

/-- The repository root directory (join of the script directory and the
parent segment in the source). -/
def ROOT_DIR : String := "."

/-- The skills directory. -/
def SKILLS_DIR : String := pjoin ROOT_DIR "skills"

/-- The fixed ordered list of source files auditSkill scans. -/
def filesToScan : List String := ["index.ts", "utils.ts", "resilience.ts", "progress.ts"]

/-- One candidate found by scanLocalSkills: a category subdirectory that
contains a manifest file. -/
structure LocalSkill where
  name : String
  category : String
  path : String
  deriving DecidableEq, Repr

/-! ## The world: explicit state for the command-level effects

Commands read and rewrite the persisted registry document and read skill
files.  The observable state is a World; every primitive the engine uses
is either a read (returns the world unchanged) or a write (returns an
updated world). -/

/-- The persistent state a command can observe: the parsed registry
document (none when absent or unparseable), the text files by path
(split into lines, none when absent), the parsed JSON documents by path
(none when absent or unparseable) and the result of scanning the skill
directory tree. -/
structure World where
  registryDoc : Option DiscoveryRegistry
  fileLines : String → Option (List String)
  jsonDoc : String → Option JsonValue
  localSkills : List LocalSkill

/-- loadRegistry: the parsed document, or the fresh default registry when
it is absent or unreadable.  A read: the world is unchanged. -/
def loadRegistryM (now : String) (w : World) : DiscoveryRegistry × World :=
  (match w.registryDoc with
   | some r => r
   | none => defaultRegistry now, w)

/-- readFile of a source file followed by a split on newlines; none when
the file does not exist.  A read. -/
def readLinesM (path : String) (w : World) : Option (List String) × World :=
  (w.fileLines path, w)

/-- readFile plus JSON.parse of a structured file; none when the file is
absent or fails to parse.  A read. -/
def readJsonM (path : String) (w : World) : Option JsonValue × World :=
  (w.jsonDoc path, w)

/-- The exists check on a file path.  A read. -/
def fileExistsM (path : String) (w : World) : Bool × World :=
  ((w.fileLines path).isSome, w)

/-- scanLocalSkills: walk the category directories for candidate skills.
A read. -/
def scanLocalSkillsM (w : World) : List LocalSkill × World :=
  (w.localSkills, w)

/-- saveRegistry: set lastUpdated to now, then rewrite the whole
document.  The only write primitive the engine uses. -/
def saveRegistryM (now : String) (registry : DiscoveryRegistry) (w : World) : World :=
  { w with registryDoc := some { registry with lastUpdated := now } }

/-- The skill directory of a registered skill. -/
def skillDirOf (category skill : String) : String :=
  pjoin (pjoin SKILLS_DIR category) skill

/-- The not-found finding message of auditSkill. -/
def notFoundMsg (skill : String) : String :=
  "Skill \"" ++ skill ++ "\" not found in registry"

/-- The initial audit result: pass with no findings and zero tallies. -/
def auditInit : AuditResult :=
  { passed := true, issues := [], summary := ⟨0, 0, 0, 0⟩ }

/-- One iteration of the source-file scan loop of auditSkill: read the
file (a file that does not exist is silently skipped), scan its lines
into the running result. -/
def scanStepM (skillDir : String) (acc : AuditResult × World) (file : String) :
    AuditResult × World :=
  let (content, w2) := readLinesM (pjoin skillDir file) acc.2
  match content with
  | none => (acc.1, w2)
  | some lines => (scanFileLines file lines acc.1, w2)

/-- auditSkill: resolve the identifier against the loaded registry (a
single critical finding and an immediate failed return when absent),
scan the four fixed source files line by line against the pattern table,
check the manifest permission block, and require a security test file.
Every step but the reads is pure; the world is threaded through each
read. -/
def auditSkillM (now skill : String) (w : World) : AuditResult × World :=
  let r0 : AuditResult := auditInit
  let (registry, w) := loadRegistryM now w
  match registry.skills.find? (fun s => s.name == skill) with
  | none =>
      (addIssue r0 { severity := .critical, category := "registry",
                     message := notFoundMsg skill, file := none, line := none }, w)
  | some skillConfig =>
      let skillDir := skillDirOf skillConfig.category skill
      let scanned := filesToScan.foldl (scanStepM skillDir) (r0, w)
      let (cfgDoc, w) := readJsonM (pjoin skillDir "mcp-config.json") scanned.2
      let r2 :=
        match cfgDoc with
        | none => addIssue scanned.1 configLowFinding
        | some cfg =>
            -- a JSON-null manifest makes the plain access
            -- mcpConfig.permissions throw straight into the catch
            if jsIsNull cfg then
              addIssue scanned.1 configLowFinding
            else
              let checked := checkPermissions cfg scanned.1
              if checked.2 then addIssue checked.1 configLowFinding
              else checked.1
      let (hasSecTest, w) := fileExistsM (pjoin (pjoin skillDir "tests") "security.test.ts") w
      let r3 :=
        if hasSecTest then r2
        else addIssue r2 { severity := .medium, category := "testing",
                           message := "Missing security test file (tests/security.test.ts)",
                           file := none, line := none }
      (r3, w)

/-! ## Synchronizer (register command) -/

/-- toMcpCommand: derive the command identifier from the skill name. -/
def toMcpCommand (name : String) : String :=
  "mcp__" ++ (name.map (fun c => if c == '-' then '_' else c)) ++ "__main"

/-- The JavaScript default idiom value-or-default: the coerced value when
truthy, the default otherwise (also when the value is absent). -/
def jsOrDefStr (v? : Option JsonValue) (d : String) : String :=
  match v? with
  | some v => if jsTruthy v then jsToString v else d
  | none => d

/-- The manifest path of a scanned candidate. -/
def cfgPath (ls : LocalSkill) : String := pjoin ls.path "mcp-config.json"

/-- The manifest of a candidate as the register derivation sees it: none
when the file is absent, fails to parse, or parses to JSON null.  In the
null case the plain access mcpConfig.version throws a TypeError that the
per-candidate catch turns into a recorded skip, before any record is
built. -/
def parsedManifest (docOf : String → Option JsonValue) (ls : LocalSkill) :
    Option JsonValue :=
  (docOf (cfgPath ls)).bind (fun cfg => if jsIsNull cfg then none else some cfg)

/-- The SkillRecord the register command derives from one candidate and
its parsed manifest: version and capability from the manifest with
category-independent defaults, fixed status, link shape and empty
dependency list, and both timestamps set to now.  Applied only to
manifests that are not JSON null: on any other value the plain accesses
mcpConfig.version and mcpConfig.tools evaluate without throwing (to
undefined when the manifest is not an object); the null case, where they
throw, is filtered out beforehand (see parsedManifest). -/
def deriveRecord (ls : LocalSkill) (cfg : JsonValue) (now : String) : SkillConfig :=
  { name := ls.name,
    category := ls.category,
    version := jsOrDefStr (jsGetProp (some cfg) "version") "1.0.0",
    capability := jsOrDefStr
      (jsGetProp (jsIndex (jsGetProp (some cfg) "tools") 0) "description")
      "AI-powered skill",
    mcpCommand := toMcpCommand ls.name,
    status := .alpha,
    skillLink := { input := ["input: string"], output := ["result: string"],
                   chainable := true, suggestedNextSkills := none },
    entrypoint := "./skills/" ++ ls.category ++ "/" ++ ls.name ++ "/index.ts",
    dependencies := [],
    runtime := none,
    permissions := none,
    resourceProfile := none,
    created := now,
    updated := now }

/-- The update-existing branch of register: findIndex of the first record
with the same name; when found, overwrite that record with the derived
one while preserving its creation timestamp.  none when no record with
the name exists. -/
def updateExisting (newRec : SkillConfig) : List SkillConfig → Option (List SkillConfig)
  | [] => none
  | s :: rest =>
      if s.name == newRec.name then
        some ({ newRec with created := s.created } :: rest)
      else
        (updateExisting newRec rest).map (fun l => s :: l)

/-- One step of register over one candidate: a manifest parse failure,
like the TypeError a JSON-null manifest raises during derivation, is
caught, recorded and the candidate skipped; otherwise the derived record
either overwrites the existing same-name record (updated count) or is
appended (registered count). -/
def regStep (now : String) (docOf : String → Option JsonValue)
    (acc : List SkillConfig × Nat × Nat) (ls : LocalSkill) :
    List SkillConfig × Nat × Nat :=
  match parsedManifest docOf ls with
  | none => acc
  | some cfg =>
      let skillConfig := deriveRecord ls cfg now
      match updateExisting skillConfig acc.1 with
      | some l => (l, acc.2.1, acc.2.2 + 1)
      | none => (acc.1 ++ [skillConfig], acc.2.1 + 1, acc.2.2)

/-- The in-memory part of register all: process every scanned candidate
in order, returning the new record list and the registered and updated
counts. -/
def registerAllCore (now : String) (skills : List SkillConfig)
    (scanned : List LocalSkill) (docOf : String → Option JsonValue) :
    List SkillConfig × Nat × Nat :=
  scanned.foldl (regStep now docOf) (skills, 0, 0)

/-- The in-memory part of register for one named skill: none when the
name is not among the scanned candidates, or its manifest fails to parse
or raises during derivation (the command exits without saving);
otherwise the same derivation as the bulk path. -/
def registerOneCore (now : String) (skills : List SkillConfig)
    (scanned : List LocalSkill) (docOf : String → Option JsonValue)
    (skillName : String) : Option (List SkillConfig) :=
  match scanned.find? (fun ls => ls.name == skillName) with
  | none => none
  | some ls =>
      match parsedManifest docOf ls with
      | none => none
      | some cfg =>
          let skillConfig := deriveRecord ls cfg now
          some (match updateExisting skillConfig skills with
                | some l => l
                | none => skills ++ [skillConfig])

/-- The register all command: load the registry, scan the candidates,
reconcile them, save once at the end; returns the registered and updated
counts. -/
def registerAllM (now : String) (w : World) : (Nat × Nat) × World :=
  let (registry, w1) := loadRegistryM now w
  let (scanned, w2) := scanLocalSkillsM w1
  let res := registerAllCore now registry.skills scanned w2.jsonDoc
  ((res.2.1, res.2.2), saveRegistryM now { registry with skills := res.1 } w2)

/-- The skill list of the persisted registry document. -/
def savedSkills (w : World) : List SkillConfig :=
  match w.registryDoc with
  | some d => d.skills
  | none => []

/-! ## Scaffolding (create command): the registry update -/

/-- One step of toKebabCase: replace every maximal run of characters
outside lowercase a-z and 0-9 with a single dash (the first global regex
replace of the source, applied after lowercasing).  The flag records
whether the previous character was part of such a run. -/
def kebabDashAux : Bool → List Char → List Char
  | _, [] => []
  | inRun, c :: rest =>
      if ('a' ≤ c && c ≤ 'z') || ('0' ≤ c && c ≤ '9') then
        c :: kebabDashAux false rest
      else if inRun then kebabDashAux true rest
      else '-' :: kebabDashAux true rest

/-- Drop one leading dash if present (half of the second regex replace). -/
def dropLeadDash : List Char → List Char
  | '-' :: rest => rest
  | l => l

/-- toKebabCase: lowercase, collapse non-alphanumeric runs to dashes,
then strip one leading and one trailing dash. -/
def toKebabCase (s : String) : String :=
  let dashed := kebabDashAux false (s.data.map Char.toLower)
  String.mk (dropLeadDash ((dropLeadDash dashed.reverse).reverse))

/-- JavaScript toLowerCase. -/
def jsToLower (s : String) : String := s.map Char.toLower

/-- Capitalize the first character (charAt-toUpperCase plus slice). -/
def capitalizeWord (s : String) : String :=
  match s.data with
  | [] => ""
  | c :: rest => String.mk (c.toUpper :: rest)

/-- toPascalCase: split on dashes and capitalize each word. -/
def toPascalCase (s : String) : String :=
  String.join ((s.splitOn "-").map capitalizeWord)

/-- String.prototype.replace with a plain-string pattern: replace the
first occurrence only. -/
def replaceFirstAux (pat rep : List Char) : List Char → List Char
  | [] => []
  | c :: rest =>
      if pat.isPrefixOf (c :: rest) then rep ++ (c :: rest).drop pat.length
      else c :: replaceFirstAux pat rep rest

/-- String.prototype.replace of the first occurrence of a literal. -/
def jsReplaceFirst (s pat rep : String) : String :=
  String.mk (replaceFirstAux pat.data rep.data s.data)

/-- findSuggestedNextSkills: registry records in the same category or
whose declared link input mentions the produced output type, first three
names. -/
def findSuggestedNextSkills (registry : DiscoveryRegistry)
    (category outputType : String) : List String :=
  let candidates := registry.skills.filter (fun skill =>
    skill.category == category ||
    skill.skillLink.input.any (fun input =>
      jsIncludes (jsToLower input) (jsReplaceFirst (jsToLower outputType) "output" "")))
  ((candidates.take 3).map (fun s => s.name))

/-- getDefaultResourceProfile: the fixed per-category table, with the
automation profile as the fallback. -/
def getDefaultResourceProfile (category : String) : ResourceProfile :=
  if category == "web" then
    { intensity := "high", estimatedTokenUsage := "5k-20k",
      estimatedDuration := "10-60s", memoryRequirement := "medium" }
  else if category == "code" then
    { intensity := "medium", estimatedTokenUsage := "1k-10k",
      estimatedDuration := "5-30s", memoryRequirement := "low" }
  else if category == "data" then
    { intensity := "high", estimatedTokenUsage := "10k-50k",
      estimatedDuration := "15-120s", memoryRequirement := "high" }
  else
    { intensity := "medium", estimatedTokenUsage := "500-5k",
      estimatedDuration := "1-30s", memoryRequirement := "low" }

/-- The record createSkill appends to the registry for a new skill. -/
def newSkillRecord (registry : DiscoveryRegistry)
    (category rawName capability : String) (dependencies : List String)
    (now : String) : SkillConfig :=
  let skillName := toKebabCase rawName
  { name := skillName,
    category := category,
    version := "1.0.0",
    capability := capability,
    mcpCommand := toMcpCommand skillName,
    status := .alpha,
    skillLink := { input := ["input: string"],
                   output := ["result: string", "metadata: SkillMetadata"],
                   chainable := true,
                   suggestedNextSkills := some (findSuggestedNextSkills registry
                     category (toPascalCase skillName ++ "Output")) },
    entrypoint := "./skills/" ++ category ++ "/" ++ skillName ++ "/index.ts",
    dependencies := dependencies,
    runtime := some { type := "bun", version := ">=1.0.0", packageManager := "bun" },
    permissions := some { network := [], filesystem := [], env := [] },
    resourceProfile := some (getDefaultResourceProfile category),
    created := now,
    updated := now }

/-- The registry effect of the create command: when the target skill
directory already exists the command exits before touching the registry
(none); otherwise the new record is pushed onto the loaded registry,
which is then saved.  The guard consults only the directory, not the
registry. -/
def createSkillUpdate (dirExists : Bool) (registry : DiscoveryRegistry)
    (category rawName capability : String) (dependencies : List String)
    (now : String) : Option DiscoveryRegistry :=
  if dirExists then none
  else some { registry with
    skills := registry.skills ++
      [newSkillRecord registry category rawName capability dependencies now] }

/-- The registry the audited or validated command works on, as loaded. -/
def loadedRegistry (now : String) (w : World) : DiscoveryRegistry :=
  (loadRegistryM now w).1

/-- The audit gate invariant: the pass flag agrees with the critical and
high tallies being zero. -/
def gateInv (r : AuditResult) : Prop :=
  r.passed = (r.summary.critical == 0 && r.summary.high == 0)

/-- Pairwise-distinct identifiers in a record list. -/
def namesNodup (skills : List SkillConfig) : Prop :=
  (skills.map (fun s => s.name)).Nodup

/-! ## Lemmas: the audit gate and the finding accumulator -/

theorem addIssue_gateInv {r : AuditResult} (i : AuditFinding) (h : gateInv r) :
    gateInv (addIssue r i) := by
  cases i with
  | mk sev cat msg f ln =>
    cases sev <;>
      simp only [gateInv, addIssue, Severity.isElevated, AuditSummary.bump] at h ⊢ <;>
      simp [h]

theorem addIssue_passed_false {r : AuditResult} (i : AuditFinding)
    (h : r.passed = false) : (addIssue r i).passed = false := by
  simp only [addIssue]
  split <;> simp [h]

theorem addIssue_issues (r : AuditResult) (i : AuditFinding) :
    (addIssue r i).issues = r.issues ++ [i] := rfl

theorem foldl_addIssue_gateInv (l : List AuditFinding) :
    ∀ {r : AuditResult}, gateInv r → gateInv (l.foldl addIssue r) := by
  induction l with
  | nil => intro r h; exact h
  | cons i rest ih => intro r h; exact ih (addIssue_gateInv i h)

theorem foldl_addIssue_passed_false (l : List AuditFinding) :
    ∀ {r : AuditResult}, r.passed = false → (l.foldl addIssue r).passed = false := by
  induction l with
  | nil => intro r h; exact h
  | cons i rest ih => intro r h; exact ih (addIssue_passed_false i h)

theorem foldl_addIssue_issues (l : List AuditFinding) :
    ∀ (r : AuditResult), (l.foldl addIssue r).issues = r.issues ++ l := by
  induction l with
  | nil => intro r; simp
  | cons i rest ih =>
      intro r
      simp only [List.foldl_cons, ih, addIssue_issues, List.append_assoc,
        List.singleton_append]

theorem scanFileLines_gateInv (file : String) (lines : List String)
    {r : AuditResult} (h : gateInv r) : gateInv (scanFileLines file lines r) :=
  foldl_addIssue_gateInv _ h

theorem scanFileLines_passed_false (file : String) (lines : List String)
    {r : AuditResult} (h : r.passed = false) :
    (scanFileLines file lines r).passed = false :=
  foldl_addIssue_passed_false _ h

theorem scanFileLines_issues (file : String) (lines : List String)
    (r : AuditResult) :
    (scanFileLines file lines r).issues = r.issues ++ lineFindings file lines :=
  foldl_addIssue_issues _ r

theorem checkPermissions_fst_gateInv (cfg : JsonValue) {r : AuditResult}
    (h : gateInv r) : gateInv (checkPermissions cfg r).1 := by
  simp only [checkPermissions]
  split <;> dsimp only <;> (try split) <;> (try split) <;>
    first
    | exact addIssue_gateInv _ (addIssue_gateInv _ h)
    | exact addIssue_gateInv _ h
    | exact h

theorem scanStepM_snd (d : String) (acc : AuditResult × World) (f : String) :
    (scanStepM d acc f).2 = acc.2 := by
  simp only [scanStepM, readLinesM]
  split <;> rfl

theorem foldl_scanStepM_snd (d : String) (files : List String) :
    ∀ acc : AuditResult × World, (files.foldl (scanStepM d) acc).2 = acc.2 := by
  induction files with
  | nil => intro acc; rfl
  | cons f rest ih =>
      intro acc
      rw [List.foldl_cons, ih, scanStepM_snd]

theorem scanStepM_gateInv (d : String) (acc : AuditResult × World) (f : String)
    (h : gateInv acc.1) : gateInv (scanStepM d acc f).1 := by
  simp only [scanStepM, readLinesM]
  split
  · exact h
  · exact foldl_addIssue_gateInv _ h

theorem foldl_scanStepM_gateInv (d : String) (files : List String) :
    ∀ acc : AuditResult × World, gateInv acc.1 →
      gateInv (files.foldl (scanStepM d) acc).1 := by
  induction files with
  | nil => intro acc h; exact h
  | cons f rest ih =>
      intro acc h
      rw [List.foldl_cons]
      exact ih _ (scanStepM_gateInv d acc f h)

theorem auditInit_gateInv : gateInv auditInit := rfl

theorem audit_gateInv (now skill : String) (w : World) :
    gateInv (auditSkillM now skill w).1 := by
  unfold auditSkillM loadRegistryM
  dsimp only
  split
  · exact addIssue_gateInv _ auditInit_gateInv
  · rename_i skillConfig _
    simp only [readJsonM, fileExistsM]
    have h1 := foldl_scanStepM_gateInv (skillDirOf skillConfig.category skill)
      filesToScan (auditInit, w) auditInit_gateInv
    split
    · split
      · exact addIssue_gateInv _ h1
      · split
        · exact addIssue_gateInv _ h1
        · split
          · exact addIssue_gateInv _ (checkPermissions_fst_gateInv _ h1)
          · exact checkPermissions_fst_gateInv _ h1
    · split
      · exact addIssue_gateInv _ (addIssue_gateInv _ h1)
      · split
        · exact addIssue_gateInv _ (addIssue_gateInv _ h1)
        · split
          · exact addIssue_gateInv _
              (addIssue_gateInv _ (checkPermissions_fst_gateInv _ h1))
          · exact addIssue_gateInv _ (checkPermissions_fst_gateInv _ h1)

/-- C1: for every AuditResult returned by audit on any skill identifier
(over any world state), the pass flag is true if and only if the
critical and high tallies are both zero; medium and low findings never
change the flag. -/
theorem C1_gate_law (now skill : String) (w : World) :
    (auditSkillM now skill w).1.passed = true ↔
      (auditSkillM now skill w).1.summary.critical = 0 ∧
      (auditSkillM now skill w).1.summary.high = 0 := by
  have h := audit_gateInv now skill w
  unfold gateInv at h
  rw [h, Bool.and_eq_true, beq_iff_eq, beq_iff_eq]

/-- C10: audit never mutates the persisted state: for every skill
identifier and world, the audit command returns the world exactly as it
was (the auditor only reads; it never invokes the save primitive). -/
theorem C10_audit_preserves_world (now skill : String) (w : World) :
    (auditSkillM now skill w).2 = w := by
  unfold auditSkillM loadRegistryM
  dsimp only
  split
  · rfl
  · simp only [readJsonM, fileExistsM]
    exact foldl_scanStepM_snd _ filesToScan _

/-- C5: when the identifier has no record in the loaded registry, audit
returns exactly one critical finding with a failed result, and the
result does not depend on any source file of the world (no scan is
performed). -/
theorem C5_unknown_skill (now skill : String) (w : World)
    (h : (loadedRegistry now w).skills.find? (fun s => s.name == skill) = none) :
    (auditSkillM now skill w).1 =
      { passed := false,
        issues := [{ severity := .critical, category := "registry",
                     message := notFoundMsg skill, file := none, line := none }],
        summary := ⟨1, 0, 0, 0⟩ } := by
  unfold loadedRegistry loadRegistryM at h
  unfold auditSkillM loadRegistryM
  dsimp only
  dsimp only at h
  rw [h]
  rfl

/-- Witness world with no persisted registry document and no files. -/
def emptyWorld : World :=
  { registryDoc := none,
    fileLines := fun _ => none,
    jsonDoc := fun _ => none,
    localSkills := [] }

/-- Witness for C5 at a concrete world and identifier. -/
theorem C5_unknown_skill_witness :
    (loadedRegistry "t0" emptyWorld).skills.find? (fun s => s.name == "ghost") = none ∧
    (auditSkillM "t0" "ghost" emptyWorld).1 =
      { passed := false,
        issues := [{ severity := .critical, category := "registry",
                     message := notFoundMsg "ghost", file := none, line := none }],
        summary := ⟨1, 0, 0, 0⟩ } :=
  ⟨rfl, C5_unknown_skill "t0" "ghost" emptyWorld rfl⟩

/-- The finding auditSkill records for an eval pattern match in a
scanned file at a 1-based line number. -/
def evalFinding (file : String) (n : Nat) : AuditFinding :=
  ⟨.critical, "code-injection", "Use of eval() - potential code injection",
    some file, some n⟩

/-- The finding auditSkill records for a disabled sandbox mode. -/
def sandboxFinding : AuditFinding :=
  ⟨.high, "permissions", "Sandbox mode is disabled - skill runs without restrictions",
    some "mcp-config.json", none⟩

/-! ## Lemmas: finding membership through the audit stages -/

theorem mem_addIssue_self (r : AuditResult) (i : AuditFinding) :
    i ∈ (addIssue r i).issues := by
  simp [addIssue]

theorem mem_addIssue_of_mem {x : AuditFinding} (r : AuditResult) (i : AuditFinding)
    (h : x ∈ r.issues) : x ∈ (addIssue r i).issues := by
  simp only [addIssue, List.mem_append]
  exact Or.inl h

theorem checkPermissions_fst_mem {x : AuditFinding} (cfg : JsonValue)
    (r : AuditResult) (h : x ∈ r.issues) :
    x ∈ (checkPermissions cfg r).1.issues := by
  simp only [checkPermissions]
  split <;> dsimp only <;> (try split) <;> (try split) <;>
    first
    | exact mem_addIssue_of_mem _ _ (mem_addIssue_of_mem _ _ h)
    | exact mem_addIssue_of_mem _ _ h
    | exact h

theorem scanStepM_mem {x : AuditFinding} (d : String) (acc : AuditResult × World)
    (f : String) (h : x ∈ acc.1.issues) : x ∈ (scanStepM d acc f).1.issues := by
  simp only [scanStepM, readLinesM]
  split
  · exact h
  · rw [scanFileLines_issues]
    exact List.mem_append.mpr (Or.inl h)

theorem foldl_scanStepM_mem {x : AuditFinding} (d : String) (files : List String) :
    ∀ acc : AuditResult × World, x ∈ acc.1.issues →
      x ∈ ((files.foldl (scanStepM d) acc).1).issues := by
  induction files with
  | nil => intro acc h; exact h
  | cons f rest ih =>
      intro acc h
      rw [List.foldl_cons]
      exact ih _ (scanStepM_mem d acc f h)

theorem rxMatchesFrom_append (r : Rx) (l₁ l₂ : List Char)
    (h : rxMatchesFrom r l₁ = true) : rxMatchesFrom r (l₁ ++ l₂) = true := by
  induction l₁ generalizing r with
  | nil =>
      cases l₂ with
      | nil => exact h
      | cons c rest => simp only [rxMatchesFrom] at h ⊢; simp [h]
  | cons c rest ih =>
      simp only [rxMatchesFrom, Bool.or_eq_true] at h ⊢
      cases h with
      | inl hn => exact Or.inl hn
      | inr hm => exact Or.inr (ih _ hm)

theorem rxTest_of_contains_eval {line : String} (u v : List Char)
    (h : line.data = u ++ 'e' :: 'v' :: 'a' :: 'l' :: '(' :: v) :
    rxTest (Rx.seq (strRx "eval") (Rx.seq (Rx.star wsRx) (chRx '('))) line = true := by
  unfold rxTest
  apply List.any_eq_true.mpr
  refine ⟨'e' :: 'v' :: 'a' :: 'l' :: '(' :: v, (List.mem_tails _ _).mpr ⟨u, h.symm⟩, ?_⟩
  exact rxMatchesFrom_append _ ['e', 'v', 'a', 'l', '('] v (by decide)

theorem mem_lineFindings_eval (file : String) (lines : List String) (k : Nat)
    (line : String) (u v : List Char) (hline : lines.get? k = some line)
    (hcontains : line.data = u ++ 'e' :: 'v' :: 'a' :: 'l' :: '(' :: v) :
    evalFinding file (k + 1) ∈ lineFindings file lines := by
  unfold lineFindings
  apply List.mem_flatMap.mpr
  refine ⟨(k, line), List.mem_enum_iff_get?.mpr hline, ?_⟩
  apply List.mem_filterMap.mpr
  refine ⟨{ pattern := Rx.seq (strRx "eval") (Rx.seq (Rx.star wsRx) (chRx '(')),
            severity := .critical, category := "code-injection",
            message := "Use of eval() - potential code injection" }, ?_, ?_⟩
  · simp only [dangerousPatterns]
    exact List.mem_cons_self _ _
  · rw [if_pos (rxTest_of_contains_eval u v hcontains)]
    rfl

/-- C6: for every registered skill whose entry-point source contains the
text eval-open-paren on some line, audit reports a critical
code-injection finding located at that line's 1-based number. -/
theorem C6_eval_line (now skill : String) (w : World) (skillConfig : SkillConfig)
    (lines : List String) (k : Nat) (line : String) (u v : List Char)
    (hfind : (loadedRegistry now w).skills.find? (fun s => s.name == skill) =
      some skillConfig)
    (hfile : w.fileLines (pjoin (skillDirOf skillConfig.category skill) "index.ts") =
      some lines)
    (hline : lines.get? k = some line)
    (hcontains : line.data = u ++ 'e' :: 'v' :: 'a' :: 'l' :: '(' :: v) :
    evalFinding "index.ts" (k + 1) ∈ (auditSkillM now skill w).1.issues := by
  unfold loadedRegistry loadRegistryM at hfind
  dsimp only at hfind
  unfold auditSkillM loadRegistryM
  dsimp only
  rw [hfind]
  dsimp only
  simp only [readJsonM, fileExistsM]
  have hmem0 : evalFinding "index.ts" (k + 1) ∈
      ((filesToScan.foldl (scanStepM (skillDirOf skillConfig.category skill))
        (auditInit, w)).1).issues := by
    simp only [filesToScan, List.foldl_cons]
    have hstep : scanStepM (skillDirOf skillConfig.category skill)
        (auditInit, w) "index.ts" =
        (scanFileLines "index.ts" lines auditInit, w) := by
      simp only [scanStepM, readLinesM]
      rw [hfile]
    rw [hstep]
    apply scanStepM_mem
    apply scanStepM_mem
    apply scanStepM_mem
    dsimp only
    rw [scanFileLines_issues]
    dsimp only [auditInit]
    rw [List.nil_append]
    exact mem_lineFindings_eval "index.ts" lines k line u v hline hcontains
  split
  · split
    · exact mem_addIssue_of_mem _ _ hmem0
    · split
      · exact mem_addIssue_of_mem _ _ hmem0
      · split
        · exact mem_addIssue_of_mem _ _ (checkPermissions_fst_mem _ _ hmem0)
        · exact checkPermissions_fst_mem _ _ hmem0
  · split
    · exact mem_addIssue_of_mem _ _ (mem_addIssue_of_mem _ _ hmem0)
    · split
      · exact mem_addIssue_of_mem _ _ (mem_addIssue_of_mem _ _ hmem0)
      · split
        · exact mem_addIssue_of_mem _ _
            (mem_addIssue_of_mem _ _ (checkPermissions_fst_mem _ _ hmem0))
        · exact mem_addIssue_of_mem _ _ (checkPermissions_fst_mem _ _ hmem0)

/-- A concrete registered skill used by the audit witnesses. -/
def skillFoo : SkillConfig :=
  { name := "foo", category := "web", version := "1.0.0", capability := "cap",
    mcpCommand := toMcpCommand "foo", status := .alpha,
    skillLink := { input := ["input: string"], output := ["result: string"],
                   chainable := true, suggestedNextSkills := none },
    entrypoint := "./skills/web/foo/index.ts", dependencies := [],
    runtime := none, permissions := none, resourceProfile := none,
    created := "t0", updated := "t0" }

/-- A registry holding only skillFoo. -/
def regFoo : DiscoveryRegistry := { defaultRegistry "t0" with skills := [skillFoo] }

/-- A world whose entry-point source for skillFoo calls eval on line 2. -/
def evalWorld : World :=
  { registryDoc := some regFoo,
    fileLines := fun p =>
      if p == pjoin (skillDirOf "web" "foo") "index.ts" then
        some ["const a = 1", "run(eval(code))"]
      else none,
    jsonDoc := fun _ => none,
    localSkills := [] }

/-- Witness for C6 at a concrete world: the eval call on line 2 of the
entry point is reported as a critical code-injection finding at line 2. -/
theorem C6_eval_line_witness :
    (loadedRegistry "t0" evalWorld).skills.find? (fun s => s.name == "foo") =
      some skillFoo ∧
    evalWorld.fileLines (pjoin (skillDirOf skillFoo.category "foo") "index.ts") =
      some ["const a = 1", "run(eval(code))"] ∧
    ["const a = 1", "run(eval(code))"].get? 1 = some "run(eval(code))" ∧
    evalFinding "index.ts" 2 ∈ (auditSkillM "t0" "foo" evalWorld).1.issues :=
  ⟨rfl, rfl, rfl,
    C6_eval_line "t0" "foo" evalWorld skillFoo ["const a = 1", "run(eval(code))"]
      1 "run(eval(code))" ['r', 'u', 'n', '('] ['c', 'o', 'd', 'e', ')', ')']
      rfl rfl rfl (by decide)⟩

theorem addIssue_passed_false_of_elevated (r : AuditResult) (i : AuditFinding)
    (h : i.severity.isElevated = true) : (addIssue r i).passed = false := by
  simp [addIssue, h]

/-- A manifest with an observable sandbox mode is an object, never JSON
null. -/
theorem jsIsNull_false_of_sandbox_mode {cfg : JsonValue} {lit : String}
    (h : jsIsStr (jsGetProp (jsGetProp (jsGetProp (some cfg) "permissions")
      "sandbox") "mode") lit = true) : jsIsNull cfg = false := by
  cases cfg <;> first | rfl | exact Bool.noConfusion h

theorem checkPermissions_sandbox (cfg : JsonValue) (r : AuditResult)
    (hmode : jsIsStr (jsGetProp (jsGetProp (jsGetProp (some cfg) "permissions")
      "sandbox") "mode") "none" = true) :
    sandboxFinding ∈ (checkPermissions cfg r).1.issues ∧
    (checkPermissions cfg r).1.passed = false := by
  simp only [checkPermissions, hmode, Bool.true_or, if_true]
  split <;> dsimp only <;> (try split) <;>
    first
    | exact ⟨mem_addIssue_of_mem _ _ (mem_addIssue_self _ _),
        addIssue_passed_false _ (addIssue_passed_false_of_elevated _ _ rfl)⟩
    | exact ⟨mem_addIssue_self _ _, addIssue_passed_false_of_elevated _ _ rfl⟩

/-- C7: for every registered skill whose manifest permission block sets
the sandbox mode to none, audit reports a high-severity permissions
finding and fails the gate, for every world (in particular with no
code-pattern findings). -/
theorem C7_sandbox_none (now skill : String) (w : World)
    (skillConfig : SkillConfig) (cfg : JsonValue)
    (hfind : (loadedRegistry now w).skills.find? (fun s => s.name == skill) =
      some skillConfig)
    (hdoc : w.jsonDoc (pjoin (skillDirOf skillConfig.category skill)
      "mcp-config.json") = some cfg)
    (hmode : jsIsStr (jsGetProp (jsGetProp (jsGetProp (some cfg) "permissions")
      "sandbox") "mode") "none" = true) :
    sandboxFinding ∈ (auditSkillM now skill w).1.issues ∧
    (auditSkillM now skill w).1.passed = false := by
  have hnull : jsIsNull cfg = false := jsIsNull_false_of_sandbox_mode hmode
  unfold loadedRegistry loadRegistryM at hfind
  dsimp only at hfind
  unfold auditSkillM loadRegistryM
  dsimp only
  rw [hfind]
  dsimp only
  simp only [readJsonM, fileExistsM]
  rw [foldl_scanStepM_snd]
  dsimp only
  rw [hdoc]
  dsimp only
  rw [if_neg (show ¬(jsIsNull cfg = true) by
    rw [hnull]; exact Bool.false_ne_true)]
  have h2 := checkPermissions_sandbox cfg
    ((filesToScan.foldl (scanStepM (skillDirOf skillConfig.category skill))
      (auditInit, w)).1) hmode
  split
  · split
    · exact ⟨mem_addIssue_of_mem _ _ h2.1, addIssue_passed_false _ h2.2⟩
    · exact h2
  · split
    · exact ⟨mem_addIssue_of_mem _ _ (mem_addIssue_of_mem _ _ h2.1),
        addIssue_passed_false _ (addIssue_passed_false _ h2.2)⟩
    · exact ⟨mem_addIssue_of_mem _ _ h2.1, addIssue_passed_false _ h2.2⟩

/-- The manifest with sandbox mode none used by the C7 witness. -/
def sandboxManifest : JsonValue :=
  .obj [("permissions", .obj [("sandbox", .obj [("mode", .str "none")])])]

/-- A world whose manifest for skillFoo disables the sandbox and whose
source files are all absent (no code-pattern findings). -/
def sandboxWorld : World :=
  { registryDoc := some regFoo,
    fileLines := fun _ => none,
    jsonDoc := fun p =>
      if p == pjoin (skillDirOf "web" "foo") "mcp-config.json" then
        some sandboxManifest
      else none,
    localSkills := [] }

/-- Witness for C7 at a concrete world. -/
theorem C7_sandbox_none_witness :
    (loadedRegistry "t0" sandboxWorld).skills.find? (fun s => s.name == "foo") =
      some skillFoo ∧
    sandboxWorld.jsonDoc (pjoin (skillDirOf skillFoo.category "foo")
      "mcp-config.json") = some sandboxManifest ∧
    (sandboxFinding ∈ (auditSkillM "t0" "foo" sandboxWorld).1.issues ∧
      (auditSkillM "t0" "foo" sandboxWorld).1.passed = false) :=
  ⟨rfl, rfl, C7_sandbox_none "t0" "foo" sandboxWorld skillFoo sandboxManifest
    rfl rfl rfl⟩

/-! ## Lemmas: the validator -/

/-- A tool element with an observable truthy property is not JSON null
(property access on null would have thrown instead of evaluating). -/
theorem jsIsNull_false_of_truthy_prop {t : JsonValue} {k : String}
    (h : jsTruthyOpt (jsGetProp (some t) k) = true) : jsIsNull t = false := by
  cases t <;> first | rfl | exact Bool.noConfusion h

theorem toolErrors_some_nil (i : Nat) (t : JsonValue)
    (h1 : jsTruthyOpt (jsGetProp (some t) "name") = true)
    (h2 : jsTruthyOpt (jsGetProp (some t) "description") = true)
    (h3 : jsTruthyOpt (jsGetProp (some t) "inputSchema") = true) :
    toolErrors i t = some [] := by
  simp [toolErrors, jsIsNull_false_of_truthy_prop h1, h1, h2, h3]

/-- A tools array whose every element carries the three required pieces
completes the loop with no indexed tool errors (and no thrown
TypeError). -/
theorem toolsLoop_nil (ts : List JsonValue) :
    ∀ n : Nat,
      (∀ t ∈ ts, jsTruthyOpt (jsGetProp (some t) "name") = true ∧
        jsTruthyOpt (jsGetProp (some t) "description") = true ∧
        jsTruthyOpt (jsGetProp (some t) "inputSchema") = true) →
      toolsLoop n ts = some [] := by
  induction ts with
  | nil => intro n h; rfl
  | cons t rest ih =>
      intro n h
      have ht := h t (List.mem_cons_self _ _)
      have hrest := fun x hx => h x (List.mem_cons_of_mem _ hx)
      unfold toolsLoop
      rw [toolErrors_some_nil n t ht.1 ht.2.1 ht.2.2, ih (n + 1) hrest]
      rfl

/-- C9: a manifest whose version field is present but equal to the empty
string, with name a string, the exact protocol constant, and a tools
array whose elements are all complete, validates with no errors: the
empty-string version triggers neither the missing-field check (the key
is present) nor the semver check (the empty string is falsy), and the
well-formed tools elements rule out the thrown-TypeError path. -/
theorem C9_empty_version_valid (config : List (String × JsonValue))
    (n : String) (ts : List JsonValue)
    (hname : jsGet config "name" = some (.str n))
    (hversion : jsGet config "version" = some (.str ""))
    (hprotocol : jsGet config "protocol" = some (.str "mcp-2026"))
    (htools : jsGet config "tools" = some (.arr ts))
    (htoolsOk : ∀ t ∈ ts, jsTruthyOpt (jsGetProp (some t) "name") = true ∧
      jsTruthyOpt (jsGetProp (some t) "description") = true ∧
      jsTruthyOpt (jsGetProp (some t) "inputSchema") = true) :
    validateAgainstSchema config = some { valid := true, errors := [] } := by
  unfold validateAgainstSchema
  simp [MCP_2026_required, hname, hversion, hprotocol, htools,
    jsTruthy, jsTypeofString, jsIsStr, toolsLoop_nil ts 0 htoolsOk]

/-- A concrete manifest with an empty-string version and every other
field well-formed. -/
def emptyVersionManifest : List (String × JsonValue) :=
  [("name", .str "demo"), ("version", .str ""), ("protocol", .str "mcp-2026"),
   ("tools", .arr [.obj [("name", .str "t"), ("description", .str "d"),
     ("inputSchema", .obj [])]])]

/-- Witness for C9 at a concrete manifest. -/
theorem C9_empty_version_valid_witness :
    jsGet emptyVersionManifest "version" = some (.str "") ∧
    validateAgainstSchema emptyVersionManifest =
      some { valid := true, errors := [] } :=
  ⟨rfl, C9_empty_version_valid emptyVersionManifest "demo"
    [.obj [("name", .str "t"), ("description", .str "d"), ("inputSchema", .obj [])]]
    rfl rfl rfl rfl (by decide)⟩

/-- C4 counterexample: on the empty manifest the version field is absent,
yet validate returns four missing-field errors, not exactly the single
version error the claim asserts. -/
theorem C4_counterexample :
    jsGet [] "version" = none ∧
    validateAgainstSchema [] =
      some { valid := false,
             errors := [missingFieldMsg "name", missingFieldMsg "version",
               missingFieldMsg "protocol", missingFieldMsg "tools"] } ∧
    ([missingFieldMsg "name", missingFieldMsg "version",
      missingFieldMsg "protocol", missingFieldMsg "tools"] : List String) ≠
      [missingFieldMsg "version"] := by
  refine ⟨rfl, rfl, ?_⟩
  decide

/-- C4 (amended): for every manifest whose version field is absent, any
verdict validate returns carries the missing-version error (a JSON-null
tools element makes the function throw instead of returning a verdict);
the verdict is exactly that single error when name, protocol and tools
are otherwise well-formed. -/
theorem C4_missing_version_reported (config : List (String × JsonValue))
    (hv : jsGet config "version" = none) :
    (∀ r : ValidationResult, validateAgainstSchema config = some r →
      missingFieldMsg "version" ∈ r.errors) ∧
    (∀ (n : String) (ts : List JsonValue),
      jsGet config "name" = some (.str n) →
      jsGet config "protocol" = some (.str "mcp-2026") →
      jsGet config "tools" = some (.arr ts) →
      (∀ t ∈ ts, jsTruthyOpt (jsGetProp (some t) "name") = true ∧
        jsTruthyOpt (jsGetProp (some t) "description") = true ∧
        jsTruthyOpt (jsGetProp (some t) "inputSchema") = true) →
      validateAgainstSchema config =
        some { valid := false, errors := [missingFieldMsg "version"] }) := by
  have hfA : missingFieldMsg "version" ∈ MCP_2026_required.filterMap (fun f =>
      if (jsGet config f).isSome then none else some (missingFieldMsg f)) := by
    apply List.mem_filterMap.mpr
    refine ⟨"version", by decide, ?_⟩
    rw [hv]
    rfl
  constructor
  · intro r hr
    unfold validateAgainstSchema at hr
    dsimp only at hr
    split at hr
    · split at hr
      · cases hr
      · have heq := Option.some.inj hr
        subst heq
        dsimp only
        simp only [List.append_assoc, List.mem_append]
        exact Or.inl hfA
    · have heq := Option.some.inj hr
      subst heq
      dsimp only
      simp only [List.append_assoc, List.mem_append]
      exact Or.inl hfA
  · intro n ts hname hprotocol htools htoolsOk
    unfold validateAgainstSchema
    simp [MCP_2026_required, hname, hv, hprotocol, htools,
      jsTruthy, jsTypeofString, jsIsStr, toolsLoop_nil ts 0 htoolsOk]

/-- A concrete manifest with the version field absent and every other
field well-formed. -/
def noVersionManifest : List (String × JsonValue) :=
  [("name", .str "demo"), ("protocol", .str "mcp-2026"), ("tools", .arr [])]

/-- Witness for the amended C4 at a concrete manifest. -/
theorem C4_missing_version_reported_witness :
    jsGet noVersionManifest "version" = none ∧
    validateAgainstSchema noVersionManifest =
      some { valid := false, errors := [missingFieldMsg "version"] } ∧
    missingFieldMsg "version" ∈
      ({ valid := false, errors := [missingFieldMsg "version"] } :
        ValidationResult).errors :=
  ⟨rfl,
    (C4_missing_version_reported noVersionManifest rfl).2 "demo" [] rfl rfl rfl
      (by decide),
    (C4_missing_version_reported noVersionManifest rfl).1
      { valid := false, errors := [missingFieldMsg "version"] } rfl⟩

/-- C3 counterexample: a manifest whose protocol field holds the empty
string differs from the fixed constant, yet validate returns a verdict
with no error at all (the empty string is falsy, so the protocol check
is skipped). -/
theorem C3_counterexample :
    jsGet [("name", .str "demo"), ("version", .str "1.0.0"),
      ("protocol", .str ""), ("tools", .arr [])] "protocol" = some (.str "") ∧
    ("" == "mcp-2026") = false ∧
    validateAgainstSchema [("name", .str "demo"), ("version", .str "1.0.0"),
      ("protocol", .str ""), ("tools", .arr [])] =
      some { valid := true, errors := [] } :=
  ⟨rfl, rfl, rfl⟩

/-- C3 (amended): for every manifest whose protocol field is present,
truthy, and not strictly equal to the constant, any verdict validate
returns (a JSON-null tools element makes it throw instead) carries the
mismatch error naming the coerced actual value. -/
theorem C3_protocol_mismatch_reported (config : List (String × JsonValue))
    (v : JsonValue) (r : ValidationResult)
    (hget : jsGet config "protocol" = some v)
    (htruthy : jsTruthy v = true)
    (hne : jsIsStr (some v) "mcp-2026" = false)
    (hres : validateAgainstSchema config = some r) :
    protocolErrMsg (jsToString v) ∈ r.errors := by
  unfold validateAgainstSchema at hres
  dsimp only at hres
  split at hres
  · split at hres
    · cases hres
    · have heq := Option.some.inj hres
      subst heq
      dsimp only
      simp [hget, htruthy, hne]
  · have heq := Option.some.inj hres
    subst heq
    dsimp only
    simp [hget, htruthy, hne]

/-- Witness for the amended C3 at a concrete manifest. -/
theorem C3_protocol_mismatch_reported_witness :
    jsGet [("name", .str "demo"), ("version", .str "1.0.0"),
      ("protocol", .str "mcp-9999"), ("tools", .arr [])] "protocol" =
      some (.str "mcp-9999") ∧
    jsTruthy (.str "mcp-9999") = true ∧
    jsIsStr (some (.str "mcp-9999")) "mcp-2026" = false ∧
    validateAgainstSchema [("name", .str "demo"), ("version", .str "1.0.0"),
      ("protocol", .str "mcp-9999"), ("tools", .arr [])] =
      some { valid := false, errors := [protocolErrMsg "mcp-9999"] } ∧
    protocolErrMsg "mcp-9999" ∈
      ({ valid := false, errors := [protocolErrMsg "mcp-9999"] } :
        ValidationResult).errors :=
  ⟨rfl, rfl, rfl, rfl, C3_protocol_mismatch_reported
    [("name", .str "demo"), ("version", .str "1.0.0"),
     ("protocol", .str "mcp-9999"), ("tools", .arr [])]
    (.str "mcp-9999") { valid := false, errors := [protocolErrMsg "mcp-9999"] }
    rfl rfl rfl rfl⟩

/-! ## Lemmas: the register upsert step -/

theorem updateExisting_eq_none (c : SkillConfig) :
    ∀ l : List SkillConfig, updateExisting c l = none →
      l.find? (fun s => s.name == c.name) = none := by
  intro l
  induction l with
  | nil => intro _; rfl
  | cons s rest ih =>
      intro h
      unfold updateExisting at h
      by_cases hb : (s.name == c.name) = true
      · rw [if_pos hb] at h; cases h
      · rw [if_neg hb] at h
        rw [Option.map_eq_none'] at h
        have hbf : (s.name == c.name) = false := by
          cases hx : (s.name == c.name) with
          | false => rfl
          | true => exact absurd hx hb
        rw [List.find?_cons_of_neg _ (by rw [hbf]; exact Bool.false_ne_true)]
        exact ih h

theorem updateExisting_some_spec (c : SkillConfig) :
    ∀ (l l2 : List SkillConfig), updateExisting c l = some l2 →
      ∃ a, l.find? (fun s => s.name == c.name) = some a ∧
        l2.find? (fun s => s.name == c.name) =
          some { c with created := a.created } := by
  intro l
  induction l with
  | nil => intro l2 h; cases h
  | cons s rest ih =>
      intro l2 h
      unfold updateExisting at h
      by_cases hb : (s.name == c.name) = true
      · rw [if_pos hb] at h
        have hl2 : l2 = { c with created := s.created } :: rest := by
          cases h; rfl
        refine ⟨s, List.find?_cons_of_pos _ hb, ?_⟩
        rw [hl2]
        apply List.find?_cons_of_pos
        simp
      · rw [if_neg hb] at h
        cases hrec : updateExisting c rest with
        | none => rw [hrec] at h; cases h
        | some l3 =>
            rw [hrec] at h
            have hl2 : l2 = s :: l3 := by
              cases h; rfl
            obtain ⟨a, hfa, hf3⟩ := ih l3 hrec
            refine ⟨a, ?_, ?_⟩
            · rw [@List.find?_cons_of_neg _ (fun s => s.name == c.name) s rest hb]
              exact hfa
            · rw [hl2,
                @List.find?_cons_of_neg _ (fun s => s.name == c.name) s l3 hb]
              exact hf3

theorem updateExisting_find?_other (c : SkillConfig) (n : String)
    (hne : (c.name == n) = false) :
    ∀ (l l2 : List SkillConfig), updateExisting c l = some l2 →
      l2.find? (fun s => s.name == n) = l.find? (fun s => s.name == n) := by
  intro l
  induction l with
  | nil => intro l2 h; cases h
  | cons s rest ih =>
      intro l2 h
      unfold updateExisting at h
      by_cases hb : (s.name == c.name) = true
      · rw [if_pos hb] at h
        have hl2 : l2 = { c with created := s.created } :: rest := by
          cases h; rfl
        have hsn : s.name = c.name := beq_iff_eq.mp hb
        rw [hl2]
        rw [List.find?_cons_of_neg _ (by
          show ¬(({ c with created := s.created } : SkillConfig).name == n) = true
          rw [show ({ c with created := s.created } : SkillConfig).name = c.name from rfl,
            hne]
          exact Bool.false_ne_true)]
        rw [List.find?_cons_of_neg _ (by
          show ¬((s.name == n) = true)
          rw [hsn, hne]
          exact Bool.false_ne_true)]
      · rw [if_neg hb] at h
        cases hrec : updateExisting c rest with
        | none => rw [hrec] at h; cases h
        | some l3 =>
            rw [hrec] at h
            have hl2 : l2 = s :: l3 := by
              cases h; rfl
            rw [hl2]
            by_cases hsn : (s.name == n) = true
            · rw [@List.find?_cons_of_pos _ (fun s => s.name == n) s l3 hsn,
                @List.find?_cons_of_pos _ (fun s => s.name == n) s rest hsn]
            · rw [@List.find?_cons_of_neg _ (fun s => s.name == n) s l3 hsn,
                @List.find?_cons_of_neg _ (fun s => s.name == n) s rest hsn]
              exact ih l3 hrec

theorem updateExisting_map_name (c : SkillConfig) :
    ∀ (l l2 : List SkillConfig), updateExisting c l = some l2 →
      l2.map (fun s => s.name) = l.map (fun s => s.name) := by
  intro l
  induction l with
  | nil => intro l2 h; cases h
  | cons s rest ih =>
      intro l2 h
      unfold updateExisting at h
      by_cases hb : (s.name == c.name) = true
      · rw [if_pos hb] at h
        have hl2 : l2 = { c with created := s.created } :: rest := by
          cases h; rfl
        have hsn : s.name = c.name := beq_iff_eq.mp hb
        rw [hl2]
        simp [hsn]
      · rw [if_neg hb] at h
        cases hrec : updateExisting c rest with
        | none => rw [hrec] at h; cases h
        | some l3 =>
            rw [hrec] at h
            have hl2 : l2 = s :: l3 := by
              cases h; rfl
            rw [hl2]
            simp [ih l3 hrec]

theorem updateExisting_none_not_mem (c : SkillConfig) :
    ∀ l : List SkillConfig, updateExisting c l = none →
      c.name ∉ l.map (fun s => s.name) := by
  intro l h
  have hf := updateExisting_eq_none c l h
  rw [List.find?_eq_none] at hf
  intro hmem
  obtain ⟨s, hs, hname⟩ := List.mem_map.mp hmem
  exact hf s hs (by rw [hname]; simp)

/-! ## Lemmas: one register pass -/

theorem regStep_find?_other (now : String) (docOf : String → Option JsonValue)
    (n : String) (acc : List SkillConfig × Nat × Nat) (ls : LocalSkill)
    (h : (ls.name == n) = false ∨ parsedManifest docOf ls = none) :
    ((regStep now docOf acc ls).1).find? (fun s => s.name == n) =
      acc.1.find? (fun s => s.name == n) := by
  unfold regStep
  cases hd : parsedManifest docOf ls with
  | none => rfl
  | some cfg =>
      have hne : (ls.name == n) = false := by
        cases h with
        | inl h1 => exact h1
        | inr h2 => rw [hd] at h2; cases h2
      dsimp only
      cases hue : updateExisting (deriveRecord ls cfg now) acc.1 with
      | some l2 =>
          dsimp only
          exact updateExisting_find?_other (deriveRecord ls cfg now) n hne acc.1 l2 hue
      | none =>
          dsimp only
          rw [List.find?_append]
          have hsing : List.find? (fun s => s.name == n) [deriveRecord ls cfg now] =
              none := by
            rw [@List.find?_cons_of_neg _ (fun s => s.name == n)
              (deriveRecord ls cfg now) [] (by
                show ¬((deriveRecord ls cfg now).name == n) = true
                rw [show (deriveRecord ls cfg now).name = ls.name from rfl, hne]
                exact Bool.false_ne_true)]
            rfl
          rw [hsing, Option.or_none]

theorem foldl_regStep_find?_other (now : String) (docOf : String → Option JsonValue)
    (n : String) :
    ∀ (scanned : List LocalSkill) (acc : List SkillConfig × Nat × Nat),
      (∀ ls ∈ scanned, (ls.name == n) = false ∨ parsedManifest docOf ls = none) →
      ((scanned.foldl (regStep now docOf) acc).1).find? (fun s => s.name == n) =
        acc.1.find? (fun s => s.name == n) := by
  intro scanned
  induction scanned with
  | nil => intro acc h; rfl
  | cons ls rest ih =>
      intro acc h
      rw [List.foldl_cons,
        ih _ (fun x hx => h x (List.mem_cons_of_mem _ hx)),
        regStep_find?_other now docOf n acc ls (h ls (List.mem_cons_self _ _))]

/-- The field equation used to normalize predicates over derived
records. -/
theorem deriveRecord_name (ls : LocalSkill) (cfg : JsonValue) (now : String) :
    (deriveRecord ls cfg now).name = ls.name := rfl

theorem foldl_regStep_created (now : String) (docOf : String → Option JsonValue)
    (n : String) :
    ∀ (scanned : List LocalSkill) (acc : List SkillConfig × Nat × Nat)
      (a : SkillConfig),
      acc.1.find? (fun s => s.name == n) = some a →
      ∃ b, ((scanned.foldl (regStep now docOf) acc).1).find?
          (fun s => s.name == n) = some b ∧ b.created = a.created := by
  intro scanned
  induction scanned with
  | nil => intro acc a h; exact ⟨a, h, rfl⟩
  | cons ls rest ih =>
      intro acc a h
      rw [List.foldl_cons]
      cases hd : parsedManifest docOf ls with
      | none =>
          have hstep := regStep_find?_other now docOf n acc ls (Or.inr hd)
          exact ih (regStep now docOf acc ls) a (by rw [hstep]; exact h)
      | some cfg =>
          by_cases hb : (ls.name == n) = true
          · have hn : ls.name = n := beq_iff_eq.mp hb
            subst hn
            cases hue : updateExisting (deriveRecord ls cfg now) acc.1 with
            | none =>
                exfalso
                have hnone := updateExisting_eq_none (deriveRecord ls cfg now)
                  acc.1 hue
                simp only [deriveRecord_name] at hnone
                rw [h] at hnone
                cases hnone
            | some l2 =>
                obtain ⟨a2, hfa, hf2⟩ :=
                  updateExisting_some_spec (deriveRecord ls cfg now) acc.1 l2 hue
                simp only [deriveRecord_name] at hfa hf2
                have ha : a2 = a := Option.some.inj (hfa.symm.trans h)
                subst ha
                have hstep1 : (regStep now docOf acc ls).1 = l2 := by
                  unfold regStep
                  rw [hd]
                  dsimp only
                  rw [hue]
                obtain ⟨b, hb2, hcr⟩ := ih (regStep now docOf acc ls)
                  { deriveRecord ls cfg now with created := a2.created }
                  (by rw [hstep1]; exact hf2)
                exact ⟨b, hb2, hcr⟩
          · have hne : (ls.name == n) = false := by
              cases hx : (ls.name == n) with
              | false => rfl
              | true => exact absurd hx hb
            have hstep := regStep_find?_other now docOf n acc ls (Or.inl hne)
            exact ih (regStep now docOf acc ls) a (by rw [hstep]; exact h)

/-- The last candidate in scan order with a given name whose manifest
parses, together with its parsed manifest.  This is the candidate whose
derived record a register pass leaves at that name. -/
def lastParsed (docOf : String → Option JsonValue) (n : String)
    (scanned : List LocalSkill) : Option (LocalSkill × JsonValue) :=
  scanned.reverse.findSome? (fun ls =>
    if ls.name == n then (parsedManifest docOf ls).map (fun cfg => (ls, cfg)) else none)

theorem findSome?_singleton {α β : Type} (f : α → Option β) (x : α) :
    List.findSome? f [x] = f x := by
  cases h : f x <;> simp [List.findSome?_cons, h, List.findSome?]

theorem lastParsed_cons (docOf : String → Option JsonValue) (n : String)
    (ls : LocalSkill) (rest : List LocalSkill) :
    lastParsed docOf n (ls :: rest) =
      (lastParsed docOf n rest).or
        (if ls.name == n then (parsedManifest docOf ls).map (fun cfg => (ls, cfg))
         else none) := by
  unfold lastParsed
  rw [List.reverse_cons, List.findSome?_append, findSome?_singleton]

theorem lastParsed_none_forall (docOf : String → Option JsonValue) (n : String)
    (scanned : List LocalSkill) (h : lastParsed docOf n scanned = none) :
    ∀ ls ∈ scanned, (ls.name == n) = false ∨ parsedManifest docOf ls = none := by
  intro ls hmem
  have hx := List.findSome?_eq_none_iff.mp h ls (List.mem_reverse.mpr hmem)
  by_cases hb : (ls.name == n) = true
  · right
    rw [if_pos hb] at hx
    exact Option.map_eq_none'.mp hx
  · left
    cases hc : (ls.name == n) with
    | false => rfl
    | true => exact absurd hc hb

theorem foldl_regStep_lastParsed (now : String) (docOf : String → Option JsonValue)
    (n : String) (ls0 : LocalSkill) (cfg0 : JsonValue) :
    ∀ (scanned : List LocalSkill) (acc : List SkillConfig × Nat × Nat),
      lastParsed docOf n scanned = some (ls0, cfg0) →
      ∃ c, ((scanned.foldl (regStep now docOf) acc).1).find?
          (fun s => s.name == n) =
        some { deriveRecord ls0 cfg0 now with created := c } := by
  intro scanned
  induction scanned with
  | nil => intro acc h; cases h
  | cons ls rest ih =>
      intro acc h
      rw [List.foldl_cons]
      rw [lastParsed_cons] at h
      cases hrest : lastParsed docOf n rest with
      | some pair =>
          rw [hrest] at h
          have hsor : (some pair).or
              (if ls.name == n then
                (parsedManifest docOf ls).map (fun cfg => (ls, cfg)) else none) =
              some pair := rfl
          rw [hsor] at h
          have hpair : pair = (ls0, cfg0) := Option.some.inj h
          subst hpair
          exact ih (regStep now docOf acc ls) hrest
      | none =>
          rw [hrest] at h
          have hnor : (Option.none).or
              (if ls.name == n then
                (parsedManifest docOf ls).map (fun cfg => (ls, cfg)) else none) =
              (if ls.name == n then
                (parsedManifest docOf ls).map (fun cfg => (ls, cfg)) else none) := rfl
          rw [hnor] at h
          by_cases hb : (ls.name == n) = true
          · rw [if_pos hb] at h
            obtain ⟨cfg, hdoc, heq⟩ := Option.map_eq_some'.mp h
            have hls : ls = ls0 := congrArg Prod.fst heq
            have hcfg : cfg = cfg0 := congrArg Prod.snd heq
            subst hls
            subst hcfg
            have hn : ls.name = n := beq_iff_eq.mp hb
            have hforall := lastParsed_none_forall docOf n rest hrest
            rw [foldl_regStep_find?_other now docOf n rest _ hforall]
            simp only [← hn]
            cases hue : updateExisting (deriveRecord ls cfg now) acc.1 with
            | some l2 =>
                obtain ⟨a, hfa, hf2⟩ :=
                  updateExisting_some_spec (deriveRecord ls cfg now) acc.1 l2 hue
                simp only [deriveRecord_name] at hf2
                have hstep1 : (regStep now docOf acc ls).1 = l2 := by
                  unfold regStep
                  rw [hdoc]
                  dsimp only
                  rw [hue]
                exact ⟨a.created, by rw [hstep1]; exact hf2⟩
            | none =>
                have hfnone := updateExisting_eq_none (deriveRecord ls cfg now)
                  acc.1 hue
                simp only [deriveRecord_name] at hfnone
                have hstep1 : (regStep now docOf acc ls).1 =
                    acc.1 ++ [deriveRecord ls cfg now] := by
                  unfold regStep
                  rw [hdoc]
                  dsimp only
                  rw [hue]
                refine ⟨(deriveRecord ls cfg now).created, ?_⟩
                rw [hstep1, List.find?_append, hfnone]
                have hnor2 : (Option.none).or
                    (List.find? (fun s => s.name == ls.name)
                      [deriveRecord ls cfg now]) =
                    List.find? (fun s => s.name == ls.name)
                      [deriveRecord ls cfg now] := rfl
                rw [hnor2,
                  @List.find?_cons_of_pos _ (fun s => s.name == ls.name)
                    (deriveRecord ls cfg now) [] (by
                      show ((deriveRecord ls cfg now).name == ls.name) = true
                      rw [deriveRecord_name]
                      exact beq_self_eq_true ls.name)]
          · rw [if_neg hb] at h
            cases h

/-- Running one register pass leaves, at the name of any parsed
candidate, the record derived from the last parsed candidate of that
name, with some preserved creation timestamp; running a second pass over
the same candidates and manifests reproduces that record except for the
refreshed updated timestamp. -/
theorem registerAllCore_idem (now1 now2 : String) (skills : List SkillConfig)
    (scanned : List LocalSkill) (docOf : String → Option JsonValue)
    (ls : LocalSkill) (cfg : JsonValue)
    (hmem : ls ∈ scanned) (hdoc : parsedManifest docOf ls = some cfg) :
    ∃ a, ((registerAllCore now1 skills scanned docOf).1).find?
        (fun s => s.name == ls.name) = some a ∧
      ((registerAllCore now2 (registerAllCore now1 skills scanned docOf).1
          scanned docOf).1).find? (fun s => s.name == ls.name) =
        some { a with updated := now2 } := by
  cases hlp : lastParsed docOf ls.name scanned with
  | none =>
      exfalso
      have hx := lastParsed_none_forall docOf ls.name scanned hlp ls hmem
      cases hx with
      | inl h1 => rw [beq_self_eq_true] at h1; cases h1
      | inr h2 => rw [hdoc] at h2; cases h2
  | some pair =>
      obtain ⟨ls0, cfg0⟩ := pair
      unfold registerAllCore
      obtain ⟨c1, h1⟩ := foldl_regStep_lastParsed now1 docOf ls.name ls0 cfg0
        scanned (skills, 0, 0) hlp
      obtain ⟨c2, h2⟩ := foldl_regStep_lastParsed now2 docOf ls.name ls0 cfg0
        scanned ((scanned.foldl (regStep now1 docOf) (skills, 0, 0)).1, 0, 0) hlp
      obtain ⟨b, hb2, hcr⟩ := foldl_regStep_created now2 docOf ls.name scanned
        ((scanned.foldl (regStep now1 docOf) (skills, 0, 0)).1, 0, 0)
        { deriveRecord ls0 cfg0 now1 with created := c1 } h1
      have hbe : b = { deriveRecord ls0 cfg0 now2 with created := c2 } :=
        Option.some.inj (hb2.symm.trans h2)
      have hc21 : c2 = c1 := by
        rw [hbe] at hcr
        exact hcr
      refine ⟨{ deriveRecord ls0 cfg0 now1 with created := c1 }, h1, ?_⟩
      rw [h2, hc21]
      rfl

/-- C2: running register all twice over an unchanged world produces, for
every scanned candidate whose manifest parses to a non-null document (a
null document makes the derivation throw, so the candidate is skipped
and no record is produced), a second record equal to the first in every
field except the refreshed updated timestamp (in particular the creation
timestamp is preserved). -/
theorem C2_register_all_idempotent (w : World) (now1 now2 : String)
    (ls : LocalSkill) (cfg : JsonValue)
    (hmem : ls ∈ w.localSkills)
    (hdoc : w.jsonDoc (cfgPath ls) = some cfg)
    (hnn : jsIsNull cfg = false) :
    ∃ a, (savedSkills (registerAllM now1 w).2).find?
        (fun s => s.name == ls.name) = some a ∧
      (savedSkills (registerAllM now2 (registerAllM now1 w).2).2).find?
        (fun s => s.name == ls.name) = some { a with updated := now2 } := by
  have e1 : savedSkills (registerAllM now1 w).2 =
      (registerAllCore now1 (loadedRegistry now1 w).skills w.localSkills
        w.jsonDoc).1 := rfl
  have e2 : savedSkills (registerAllM now2 (registerAllM now1 w).2).2 =
      (registerAllCore now2
        (registerAllCore now1 (loadedRegistry now1 w).skills w.localSkills
          w.jsonDoc).1 w.localSkills w.jsonDoc).1 := rfl
  rw [e1, e2]
  have hpm : parsedManifest w.jsonDoc ls = some cfg := by
    unfold parsedManifest
    rw [hdoc, Option.some_bind, hnn]
    rfl
  exact registerAllCore_idem now1 now2 (loadedRegistry now1 w).skills
    w.localSkills w.jsonDoc ls cfg hmem hpm

/-- A world with no registry document and one scanned candidate with an
empty (but parseable) manifest, used by the C2 witness. -/
def regWorld : World :=
  { registryDoc := none,
    fileLines := fun _ => none,
    jsonDoc := fun p =>
      if p == cfgPath ⟨"bar", "web", "skills/web/bar"⟩ then some (.obj [])
      else none,
    localSkills := [⟨"bar", "web", "skills/web/bar"⟩] }

/-- Witness for C2 at a concrete world and two distinct timestamps. -/
theorem C2_register_all_idempotent_witness :
    (⟨"bar", "web", "skills/web/bar"⟩ : LocalSkill) ∈ regWorld.localSkills ∧
    regWorld.jsonDoc (cfgPath ⟨"bar", "web", "skills/web/bar"⟩) =
      some (.obj []) ∧
    jsIsNull (.obj []) = false ∧
    ∃ a, (savedSkills (registerAllM "t1" regWorld).2).find?
        (fun s => s.name == "bar") = some a ∧
      (savedSkills (registerAllM "t2" (registerAllM "t1" regWorld).2).2).find?
        (fun s => s.name == "bar") = some { a with updated := "t2" } :=
  ⟨List.mem_cons_self _ _, rfl, rfl,
    C2_register_all_idempotent regWorld "t1" "t2"
      ⟨"bar", "web", "skills/web/bar"⟩ (.obj [])
      (List.mem_cons_self _ _) rfl rfl⟩

/-! ## Lemmas: identifier uniqueness -/

theorem regStep_namesNodup (now : String) (docOf : String → Option JsonValue)
    (acc : List SkillConfig × Nat × Nat) (ls : LocalSkill)
    (h : namesNodup acc.1) : namesNodup (regStep now docOf acc ls).1 := by
  unfold regStep
  cases hd : parsedManifest docOf ls with
  | none => exact h
  | some cfg =>
      dsimp only
      cases hue : updateExisting (deriveRecord ls cfg now) acc.1 with
      | some l2 =>
          dsimp only
          unfold namesNodup
          rw [updateExisting_map_name (deriveRecord ls cfg now) acc.1 l2 hue]
          exact h
      | none =>
          dsimp only
          unfold namesNodup
          rw [List.map_append]
          rw [List.nodup_append]
          refine ⟨h, List.nodup_singleton _, ?_⟩
          intro x hx hy
          have hne := updateExisting_none_not_mem (deriveRecord ls cfg now)
            acc.1 hue
          have hxe : x = (deriveRecord ls cfg now).name := by
            simpa using hy
          rw [hxe] at hx
          exact hne hx

theorem foldl_regStep_namesNodup (now : String)
    (docOf : String → Option JsonValue) :
    ∀ (scanned : List LocalSkill) (acc : List SkillConfig × Nat × Nat),
      namesNodup acc.1 → namesNodup ((scanned.foldl (regStep now docOf) acc).1) := by
  intro scanned
  induction scanned with
  | nil => intro acc h; exact h
  | cons ls rest ih =>
      intro acc h
      rw [List.foldl_cons]
      exact ih _ (regStep_namesNodup now docOf acc ls h)

theorem upsertResult_namesNodup (skillConfig : SkillConfig)
    (skills : List SkillConfig) (h : namesNodup skills) :
    namesNodup (match updateExisting skillConfig skills with
      | some l => l
      | none => skills ++ [skillConfig]) := by
  cases hue : updateExisting skillConfig skills with
  | some l2 =>
      unfold namesNodup
      rw [updateExisting_map_name skillConfig skills l2 hue]
      exact h
  | none =>
      unfold namesNodup
      rw [List.map_append, List.nodup_append]
      refine ⟨h, List.nodup_singleton _, ?_⟩
      intro x hx hy
      have hne := updateExisting_none_not_mem skillConfig skills hue
      have hxe : x = skillConfig.name := by
        simpa using hy
      rw [hxe] at hx
      exact hne hx

/-- C8 counterexample seed: a registry with pairwise-distinct names
holding one record named foo in category code while the directory
skills/web/foo does not exist. -/
def regDupSeed : DiscoveryRegistry :=
  { defaultRegistry "t0" with skills := [{ skillFoo with category := "code" }] }

/-- The registry the create command produces from the seed. -/
def regDupResult : DiscoveryRegistry :=
  (createSkillUpdate false regDupSeed "web" "foo" "cap" [] "t1").getD
    (defaultRegistry "t0")

/-- C8 counterexample: from a registry with pairwise-distinct identifiers
that already holds a record named foo (category code), create for
category web and name foo passes its directory-existence guard and
pushes a second record named foo: the uniqueness invariant is not
preserved by create. -/
theorem C8_counterexample :
    namesNodup regDupSeed.skills ∧
    createSkillUpdate false regDupSeed "web" "foo" "cap" [] "t1" =
      some regDupResult ∧
    regDupResult.skills.map (fun s => s.name) = ["foo", "foo"] ∧
    ¬ namesNodup regDupResult.skills := by
  refine ⟨?_, rfl, rfl, ?_⟩
  · unfold namesNodup
    decide
  · unfold namesNodup
    decide

/-- C8 (amended): register all and register one preserve pairwise
distinctness of registry identifiers from any state; create preserves it
provided the derived kebab-case name is not already registered (its own
guard checks only the target directory, so this extra hypothesis is
necessary, as the counterexample shows). -/
theorem C8_unique_names_invariant :
    (∀ (now : String) (skills : List SkillConfig) (scanned : List LocalSkill)
      (docOf : String → Option JsonValue),
      namesNodup skills →
      namesNodup (registerAllCore now skills scanned docOf).1) ∧
    (∀ (now skillName : String) (skills : List SkillConfig)
      (scanned : List LocalSkill) (docOf : String → Option JsonValue)
      (l2 : List SkillConfig),
      namesNodup skills →
      registerOneCore now skills scanned docOf skillName = some l2 →
      namesNodup l2) ∧
    (∀ (dirExists : Bool) (registry : DiscoveryRegistry)
      (category rawName capability : String) (deps : List String)
      (now : String) (r2 : DiscoveryRegistry),
      namesNodup registry.skills →
      toKebabCase rawName ∉ registry.skills.map (fun s => s.name) →
      createSkillUpdate dirExists registry category rawName capability deps
        now = some r2 →
      namesNodup r2.skills) := by
  refine ⟨?_, ?_, ?_⟩
  · intro now skills scanned docOf h
    exact foldl_regStep_namesNodup now docOf scanned (skills, 0, 0) h
  · intro now skillName skills scanned docOf l2 h heq
    unfold registerOneCore at heq
    cases hf : scanned.find? (fun ls => ls.name == skillName) with
    | none => rw [hf] at heq; cases heq
    | some ls =>
        rw [hf] at heq
        dsimp only at heq
        cases hd : parsedManifest docOf ls with
        | none => rw [hd] at heq; cases heq
        | some cfg =>
            rw [hd] at heq
            dsimp only at heq
            have hl2 : l2 = (match updateExisting (deriveRecord ls cfg now)
                skills with
              | some l => l
              | none => skills ++ [deriveRecord ls cfg now]) := by
              cases heq; rfl
            rw [hl2]
            exact upsertResult_namesNodup (deriveRecord ls cfg now) skills h
  · intro dirExists registry category rawName capability deps now r2 h hnm heq
    unfold createSkillUpdate at heq
    cases hde : dirExists with
    | true => rw [hde] at heq; cases heq
    | false =>
        rw [hde] at heq
        have hr2 : r2 = { registry with skills := registry.skills ++
            [newSkillRecord registry category rawName capability deps now] } := by
          cases heq; rfl
        rw [hr2]
        unfold namesNodup
        rw [List.map_append, List.nodup_append]
        refine ⟨h, List.nodup_singleton _, ?_⟩
        intro x hx hy
        have hxe : x = (newSkillRecord registry category rawName capability
            deps now).name := by
          simpa using hy
        have hname : (newSkillRecord registry category rawName capability
            deps now).name = toKebabCase rawName := rfl
        rw [hxe, hname] at hx
        exact hnm hx

/-- The registry produced by registering one new candidate over regFoo,
used by the C8 witness. -/
def oneRegistered : List SkillConfig :=
  (registerOneCore "t1" [skillFoo] [⟨"bar", "web", "skills/web/bar"⟩]
    (fun _ => some (.obj [])) "bar").getD []

/-- The registry produced by creating a fresh skill over regFoo, used by
the C8 witness. -/
def createdBar : DiscoveryRegistry :=
  (createSkillUpdate false regFoo "web" "bar" "cap" [] "t1").getD
    (defaultRegistry "t0")

/-- Witness for the amended C8: each of the three preserved operations
applied at a concrete distinct-name registry. -/
theorem C8_unique_names_invariant_witness :
    namesNodup (registerAllCore "t1" [skillFoo]
      [⟨"bar", "web", "skills/web/bar"⟩] (fun _ => some (.obj []))).1 ∧
    namesNodup oneRegistered ∧
    namesNodup createdBar.skills :=
  ⟨C8_unique_names_invariant.1 "t1" [skillFoo]
      [⟨"bar", "web", "skills/web/bar"⟩] (fun _ => some (.obj []))
      (by unfold namesNodup; decide),
    C8_unique_names_invariant.2.1 "t1" "bar" [skillFoo]
      [⟨"bar", "web", "skills/web/bar"⟩] (fun _ => some (.obj []))
      oneRegistered (by unfold namesNodup; decide) rfl,
    C8_unique_names_invariant.2.2 false regFoo "web" "bar" "cap" [] "t1"
      createdBar (by unfold namesNodup; decide) (by decide) rfl⟩
